import Mathlib

/-!
Verification of the `cmpchain` comparison-chaining rewriter (`src/lib.rs`).

The repository exports a single declarative rewriter, `chain!`, that turns a
flat token sequence `t0 op0 t1 op1 ... opn-1 tn` into a single boolean
expression equivalent to the conjunction of all adjacent comparisons, with
each term evaluated at most once, left to right, and short-circuiting.

The rewriter works in two passes, both embedded here:

* the `@wrap` rules (grouper): scan the raw tokens, closing the current
  accumulator into a parenthesised term each time a comparison operator is
  encountered, producing `(t0) op0 (t1) ... (tn)`;
* the `@op` rules (chain builder): expand the grouped sequence into nested
  `let a = t0; let b = t1; a op0 b && ...` blocks whose runtime behaviour we
  model as an instrumented evaluator that records, in order, the index of
  every term whose side effect fires.

Tokens are modelled as either one of the six recognised comparison-operator
tokens or an opaque non-operator token (`Tok.atom`); the grouper never looks
inside non-operator tokens, exactly like the source's token-tree matching.
-/

set_option autoImplicit false

namespace Cmpchain

/-- The six comparison operators recognised by `chain!`
(`<`, `<=`, `>`, `>=`, `==`, `!=`), from the six `@wrap` operator rules. -/
inductive Op : Type where
  | lt
  | le
  | gt
  | ge
  | eq
  | ne
deriving DecidableEq

/-- The source symbol of each operator, as it appears in `stringify!($op)`
inside the `@arg_err` diagnostic. -/
def Op.symbol : Op → String
  | .lt => "<"
  | .le => "<="
  | .gt => ">"
  | .ge => ">="
  | .eq => "=="
  | .ne => "!="

/-- A raw input token: either a recognised comparison-operator token or an
opaque non-operator token (identifier, literal, `+`, `/`, a parenthesised
group, ...).  The grouper only ever tests whether a token is one of the six
operators, so all other tokens are opaque, mirroring `$next:tt`. -/
inductive Tok (γ : Type) : Type where
  | op (o : Op)
  | atom (a : γ)
deriving DecidableEq

/-- Whether a token is one of the six recognised comparison operators. -/
def Tok.isOp {γ : Type} : Tok γ → Bool
  | .op _ => true
  | .atom _ => false

/-- Outcome of one full expansion of the `chain!` macro.

* `expr pairs last` — the `@op` rules matched and an expression was emitted;
  `pairs` holds the parenthesised groups with the operator that closed each
  of them, `last` is the trailing group.  This is the alternating
  `(Term, Operator)* Term` shape: `pairs.length` operators and
  `pairs.length + 1` terms.
* `argErr o` — expansion ended in `chain!(@arg_err o)`, i.e. the
  `compile_error!` whose message names the operator symbol (the spec's
  `MissingOperand` diagnostic).
* `opErr` — expansion ended in the `@op` catch-all `compile_error!`
  ("Expected comparison operator (<, <=, >, >=, ==, !=)").
* `noMatch` — no macro rule matches the call (possible only for token lists
  that the entrypoint itself cannot accept, e.g. the empty call). -/
inductive Out (γ : Type) : Type where
  | expr (pairs : List (List (Tok γ) × Op)) (last : List (Tok γ))
  | argErr (o : Op)
  | opErr
  | noMatch
deriving DecidableEq

/-- The compile-time diagnostic text attached to an outcome, taken verbatim
from the two `compile_error!` invocations in the source. -/
def Out.message {γ : Type} : Out γ → Option String
  | .argErr o => some ("Expected two arguments for \"" ++ o.symbol ++ "\"")
  | .opErr => some "Expected comparison operator (<, <=, >, >=, ==, !=)"
  | .expr _ _ => none
  | .noMatch => none

/-- Dispatch of `chain!(@op (g0) o0 (g1) o1 ... (gl))` over the `@op` rules.

With at least one operator the token count is `2*pairs.length + 1 >= 3`, so
the first or second `@op` rule matches and an expression is emitted; the
recursive second rule always bottoms out in the first.  With zero operators
(`pairs = []`) the call is `chain!(@op (g0))`: a single token tree, which
only the `@op` catch-all matches, producing the `compile_error!`. -/
def opBuild {γ : Type} (pairs : List (List (Tok γ) × Op)) (last : List (Tok γ)) : Out γ :=
  match pairs with
  | [] => Out.opErr
  | _ :: _ => Out.expr pairs last

/-- The `@wrap` rules of `chain!`, in source order.  `prev` is the first
bracket (the already-closed `(group) op` pairs), `cur` the second bracket
(tokens since the last comparison operator), and the third argument the
remaining raw tokens.

* a comparison operator followed by at least one more token, with `cur`
  non-empty: close `cur` as a group and restart the accumulator with the
  very next token `$next:tt` — whatever it is, an operator included;
* a comparison operator as the only remaining token: `chain!(@arg_err op)`;
* no tokens left, `cur` non-empty: hand the groups to `@op`;
* any other token, `cur` non-empty: append it to `cur` (catch-all rule);
* the remaining shapes (empty `cur`) match no `@wrap` rule. -/
def wrap {γ : Type} (prev : List (List (Tok γ) × Op)) (cur : List (Tok γ)) :
    List (Tok γ) → Out γ
  | [] =>
    match cur with
    | [] => Out.noMatch
    | c :: cs => opBuild prev (c :: cs)
  | [Tok.op o] => Out.argErr o
  | Tok.op o :: next :: rest =>
    match cur with
    | [] => Out.noMatch
    | c :: cs => wrap (prev ++ [(c :: cs, o)]) [next] rest
  | Tok.atom a :: rest =>
    match cur with
    | [] => Out.noMatch
    | c :: cs => wrap prev ((c :: cs) ++ [Tok.atom a]) rest

/-- One full expansion of `chain!` on a raw token list, following the rule
order of the source: the error rules for a leading comparison operator come
before the entrypoint, and the entrypoint requires at least one token before
starting `chain!(@wrap [] [$first] $rest)`. -/
def chain {γ : Type} : List (Tok γ) → Out γ
  | [] => Out.noMatch
  | Tok.op o :: _ => Out.argErr o
  | Tok.atom a :: rest => wrap [] [Tok.atom a] rest

/-! ## Runtime semantics of the expression emitted by the `@op` rules

The `@op` rules emit, for `(t0) o0 (t1) o1 ... (tn)`,

* `{ (t0) o0 (t1) }` when there is a single operator, and otherwise
* `{ let a = (t0); let b = (t1); a o0 b && chain!(@op b o1 (t2) ...) }`,

so every recursive step's first operand is the saved variable `b` rather
than a source term.  We model an operand accordingly: a source term carries
a term index (its side effect: evaluating it appends the index to the
trace) and a value, while the saved variable `b` carries only a value and
fires nothing when read. -/

/-- An operand of one comparison inside the emitted expression: a source
term (whose evaluation fires its side effect) or the saved variable `b`. -/
inductive Operand (α : Type) : Type where
  | tm (idx : Nat) (val : α)
  | saved (val : α)
deriving DecidableEq

/-- The value an operand evaluates to. -/
def Operand.val {α : Type} : Operand α → α
  | .tm _ v => v
  | .saved v => v

/-- The side effects fired by evaluating an operand once. -/
def Operand.fires {α : Type} : Operand α → List Nat
  | .tm i _ => [i]
  | .saved _ => []

/-- Evaluate an operand, appending its side effect (if any) to the trace. -/
def evalOperand {α : Type} (a : Operand α) (tr : List Nat) : α × List Nat :=
  match a with
  | .tm i v => (v, tr ++ [i])
  | .saved v => (v, tr)

/-- Instrumented runtime evaluation of the expression emitted by the `@op`
rules, for `@op a o b rest` with `rest` the remaining `op (term)` pairs.

* `rest = []` is `{ a o b }`: the host evaluates the left operand, then the
  right operand, then compares.
* otherwise the block is `{ let a = ...; let b = ...; a o b && chain!(@op b
  next...) }`: both operands are evaluated up front, and `&&` short-circuits,
  so the recursive tail runs only when the comparison holds, with the saved
  value `b` as its first operand. -/
def opEval {α : Type} (cmp : Op → α → α → Bool) (a : Operand α) (o : Op) (b : Operand α) :
    List (Op × Operand α) → List Nat → Bool × List Nat
  | [], tr =>
    let p := evalOperand a tr
    let q := evalOperand b p.2
    (cmp o p.1 q.1, q.2)
  | (o2, c) :: rest, tr =>
    let p := evalOperand a tr
    let q := evalOperand b p.2
    if cmp o p.1 q.1 then opEval cmp (Operand.saved q.1) o2 c rest q.2
    else (false, q.2)

/-- A valid chain, the shape the spec calls `Chain`: `n >= 1` operators and
`n + 1` terms.  `t0`, `op0`, `t1` are the mandatory first comparison;
`tail` lists the remaining `(operator, term)` pairs.  Each term is recorded
by the value it evaluates to; term positions are `0, 1, ..., n`. -/
structure Chain (α : Type) : Type where
  t0 : α
  op0 : Op
  t1 : α
  tail : List (Op × α)
deriving DecidableEq

/-- The terms of position `k, k+1, ...` as `@op` operands. -/
def operands {α : Type} (k : Nat) : List (Op × α) → List (Op × Operand α)
  | [] => []
  | (o, v) :: rest => (o, Operand.tm k v) :: operands (k + 1) rest

/-- Number of operators in a chain. -/
def Chain.numOps {α : Type} (c : Chain α) : Nat :=
  1 + c.tail.length

/-- Number of terms in a chain. -/
def Chain.numTerms {α : Type} (c : Chain α) : Nat :=
  2 + c.tail.length

/-- Instrumented evaluation of the full expression `chain!` emits for a
valid chain: the `@op` expansion starting from the two leading source terms
(positions 0 and 1), with an empty trace.  Returns the boolean value of the
block together with the indices of the terms whose side effects fired, in
firing order. -/
def Chain.eval {α : Type} (cmp : Op → α → α → Bool) (c : Chain α) : Bool × List Nat :=
  opEval cmp (Operand.tm 0 c.t0) c.op0 (Operand.tm 1 c.t1) (operands 2 c.tail) []

/-! ## Specification-side descriptions

The following definitions restate, independently of the `@op` recursion,
what the spec says the emitted expression computes: the list of adjacent
pairwise comparisons each evaluated on its own, the index of the first
false comparison, and how many terms fire before evaluation stops. -/

/-- The adjacent pairwise comparisons of a chain starting from left value
`va`, each evaluated independently. -/
def comps {α : Type} (cmp : Op → α → α → Bool) (va : α) : List (Op × α) → List Bool
  | [] => []
  | (o, v) :: rest => cmp o va v :: comps cmp v rest

/-- All adjacent pairwise comparisons of a chain, evaluated independently. -/
def Chain.comparisons {α : Type} (cmp : Op → α → α → Bool) (c : Chain α) : List Bool :=
  comps cmp c.t0 ((c.op0, c.t1) :: c.tail)

/-- How many of the terms after the first one are evaluated: the right
operand of a comparison always is; the terms beyond it only when the
comparison holds. -/
def evalCount {α : Type} (cmp : Op → α → α → Bool) (va : α) : List (Op × α) → Nat
  | [] => 0
  | (o, v) :: rest => if cmp o va v then evalCount cmp v rest + 1 else 1

/-- Total number of terms of the chain that are evaluated (the first term
always is). -/
def Chain.evaluated {α : Type} (cmp : Op → α → α → Bool) (c : Chain α) : Nat :=
  evalCount cmp c.t0 ((c.op0, c.t1) :: c.tail) + 1

/-- Index of the first false comparison, if any, starting from left value
`va`. -/
def firstFalseAux {α : Type} (cmp : Op → α → α → Bool) (va : α) :
    List (Op × α) → Option Nat
  | [] => none
  | (o, v) :: rest =>
    if cmp o va v then (firstFalseAux cmp v rest).map (fun i => i + 1) else some 0

/-- Index of the first false comparison of a chain, if any. -/
def Chain.firstFalse {α : Type} (cmp : Op → α → α → Bool) (c : Chain α) : Option Nat :=
  firstFalseAux cmp c.t0 ((c.op0, c.t1) :: c.tail)

/-- The number of terms the spec says are evaluated: everything up to and
including the right operand of the first false comparison, or all terms
when every comparison holds. -/
def Chain.truncLen {α : Type} (cmp : Op → α → α → Bool) (c : Chain α) : Nat :=
  match c.firstFalse cmp with
  | some i => i + 2
  | none => c.numTerms

/-- The host language's comparison semantics on integers, used to run the
emitted expression on concrete examples (`Operator semantics` in the spec:
each tag maps to the host's native comparison). -/
def Op.applyInt : Op → Int → Int → Bool
  | .lt, a, b => decide (a < b)
  | .le, a, b => decide (a ≤ b)
  | .gt, a, b => decide (a > b)
  | .ge, a, b => decide (a ≥ b)
  | .eq, a, b => decide (a = b)
  | .ne, a, b => decide (a ≠ b)

/-- A term as emitted by the grouper may contain a comparison-operator token
only as its first token (where one lands when it is captured as the `$next`
of the preceding operator rule). -/
def goodTerm {γ : Type} (g : List (Tok γ)) : Prop :=
  g ≠ [] ∧ ∀ t ∈ g.drop 1, t.isOp = false

/-- `true` when no comparison-operator token is directly followed by
another one. -/
def noConsec {γ : Type} : List (Tok γ) → Bool
  | Tok.op _ :: Tok.op _ :: _ => false
  | _ :: rest => noConsec rest
  | [] => true

/-! ## Concrete example harness

The grouper treats non-operator tokens as opaque.  To run the spec's
arithmetic example `1 + 2 == 6 / 2 == 3` we instantiate the opaque tokens
with a small atom type and model the host's evaluation of the flat operand
expressions the grouper produces. -/

/-- The non-operator tokens occurring in the spec's arithmetic examples. -/
inductive Atom : Type where
  | num (n : Int)
  | plus
  | div
deriving DecidableEq

/-- Modelled from the spec: the host language's evaluator for operand
sub-expressions, which the system does not contain ("semantic evaluation of
operand sub-expressions is delegated entirely to the host expression
evaluator").  Only the flat operand shapes appearing in the example are
given a meaning. -/
def evalAtomTerm : List (Tok Atom) → Int
  | [Tok.atom (Atom.num a)] => a
  | [Tok.atom (Atom.num a), Tok.atom Atom.plus, Tok.atom (Atom.num b)] => a + b
  | [Tok.atom (Atom.num a), Tok.atom Atom.div, Tok.atom (Atom.num b)] => a / b
  | _ => 0

/-- Read the remaining `(group, operator)` pairs and the trailing group into
the tail of a `Chain`, given the operator that closed the previous group. -/
def tailOf {γ α : Type} (tval : List (Tok γ) → α) (o : Op) :
    List (List (Tok γ) × Op) → List (Tok γ) → List (Op × α)
  | [], last => [(o, tval last)]
  | (g, o2) :: rest, last => (o, tval g) :: tailOf tval o2 rest last

/-- Read a successful grouper outcome back into a `Chain`, evaluating each
term with the host evaluator `tval`. -/
def chainOf {γ α : Type} (tval : List (Tok γ) → α) : Out γ → Option (Chain α)
  | Out.expr [(g0, o0)] last => some ⟨tval g0, o0, tval last, []⟩
  | Out.expr ((g0, o0) :: (g1, o1) :: rest) last =>
    some ⟨tval g0, o0, tval g1, tailOf tval o1 rest last⟩
  | _ => none

/-- The raw tokens of the spec example `1 + 2 == 6 / 2 == 3`. -/
def exTokens : List (Tok Atom) :=
  [Tok.atom (Atom.num 1), Tok.atom Atom.plus, Tok.atom (Atom.num 2),
   Tok.op Op.eq,
   Tok.atom (Atom.num 6), Tok.atom Atom.div, Tok.atom (Atom.num 2),
   Tok.op Op.eq,
   Tok.atom (Atom.num 3)]

/-! ## Supporting lemmas about the emitted expression's evaluation -/

theorem Operand.val_tm {α : Type} (i : Nat) (v : α) : (Operand.tm i v).val = v := rfl

theorem Operand.val_saved {α : Type} (v : α) : (Operand.saved v).val = v := rfl

theorem Operand.fires_tm {α : Type} (i : Nat) (v : α) : (Operand.tm i v).fires = [i] := rfl

theorem Operand.fires_saved {α : Type} (v : α) : (Operand.saved v).fires = [] := rfl

theorem evalOperand_eq {α : Type} (a : Operand α) (tr : List Nat) :
    evalOperand a tr = (a.val, tr ++ a.fires) := by
  cases a <;> simp [evalOperand, Operand.val, Operand.fires]

/-- Central characterisation of the `@op` expansion's runtime behaviour:
starting from any operand `a` and the source terms at positions
`k, k+1, ...`, the block computes the conjunction of the independent
pairwise comparisons, and fires exactly the side effects of `a` followed by
the consecutive term positions `k, k+1, ...` up to the number of terms the
comparisons allow. -/
theorem opEval_spec {α : Type} (cmp : Op → α → α → Bool) :
    ∀ (l : List (Op × α)) (a : Operand α) (o : Op) (k : Nat) (vb : α) (tr : List Nat),
    opEval cmp a o (Operand.tm k vb) (operands (k + 1) l) tr
      = ((comps cmp a.val ((o, vb) :: l)).all id,
         tr ++ a.fires ++ List.range' k (evalCount cmp a.val ((o, vb) :: l))) := by
  intro l
  induction l with
  | nil =>
    intro a o k vb tr
    by_cases h : cmp o a.val vb <;>
      simp [opEval, operands, evalOperand_eq, comps, evalCount,
        Operand.val_tm, Operand.fires_tm, List.range'_succ, h]
  | cons hd l ih =>
    obtain ⟨o2, v2⟩ := hd
    intro a o k vb tr
    by_cases h : cmp o a.val vb
    · simp only [operands, opEval, evalOperand_eq, Operand.val_tm,
        Operand.fires_tm, h, if_true]
      rw [ih (Operand.saved vb) o2 (k + 1) v2 (tr ++ a.fires ++ [k])]
      simp [comps, evalCount, Operand.val_saved, Operand.fires_saved,
        List.range'_succ, h]
    · simp [operands, opEval, evalOperand_eq, Operand.val_tm, Operand.fires_tm,
        comps, evalCount, List.range'_succ, h]

/-- `Chain.eval` in closed form: the boolean is the conjunction of the
independent pairwise comparisons, and the trace is exactly the first
`Chain.evaluated` term positions, in order. -/
theorem chain_eval_spec {α : Type} (cmp : Op → α → α → Bool) (c : Chain α) :
    Chain.eval cmp c
      = ((Chain.comparisons cmp c).all id, List.range (Chain.evaluated cmp c)) := by
  have h := opEval_spec cmp c.tail (Operand.tm 0 c.t0) c.op0 1 c.t1 []
  simp only [Operand.val, Operand.fires] at h
  rw [Chain.eval, h, Chain.comparisons, Chain.evaluated, List.range_eq_range',
    List.range'_succ]
  simp

theorem evalCount_pos {α : Type} (cmp : Op → α → α → Bool) (va : α) (o : Op) (v : α)
    (l : List (Op × α)) : 1 ≤ evalCount cmp va ((o, v) :: l) := by
  by_cases h : cmp o va v <;> simp [evalCount, h]

theorem evalCount_le_length {α : Type} (cmp : Op → α → α → Bool) :
    ∀ (l : List (Op × α)) (va : α), evalCount cmp va l ≤ l.length := by
  intro l
  induction l with
  | nil => intro va; simp [evalCount]
  | cons hd l ih =>
    obtain ⟨o, v⟩ := hd
    intro va
    by_cases h : cmp o va v
    · rw [evalCount, if_pos h]
      simp only [List.length_cons]
      exact Nat.add_le_add_right (ih v) 1
    · rw [evalCount, if_neg h]
      simp only [List.length_cons]
      omega

/-- When some comparison is false, the first false one sits strictly inside
the list, and exactly the terms up to its right operand are evaluated. -/
theorem firstFalseAux_some {α : Type} (cmp : Op → α → α → Bool) :
    ∀ (l : List (Op × α)) (va : α) (i : Nat),
    firstFalseAux cmp va l = some i → evalCount cmp va l = i + 1 ∧ i < l.length := by
  intro l
  induction l with
  | nil => intro va i h; simp [firstFalseAux] at h
  | cons hd l ih =>
    obtain ⟨o, v⟩ := hd
    intro va i h
    by_cases hc : cmp o va v
    · rw [firstFalseAux, if_pos hc, Option.map_eq_some'] at h
      obtain ⟨j, hj, hji⟩ := h
      obtain ⟨hcount, hlen⟩ := ih v j hj
      subst hji
      have hstep : evalCount cmp va ((o, v) :: l) = evalCount cmp v l + 1 := by
        simp [evalCount, hc]
      constructor
      · rw [hstep, hcount]
      · simp only [List.length_cons]
        omega
    · rw [firstFalseAux, if_neg hc] at h
      obtain rfl : (0 : Nat) = i := by simpa using h
      simp [evalCount, hc]

/-- When every comparison is true, every term after the first is
evaluated. -/
theorem firstFalseAux_none {α : Type} (cmp : Op → α → α → Bool) :
    ∀ (l : List (Op × α)) (va : α),
    firstFalseAux cmp va l = none → evalCount cmp va l = l.length := by
  intro l
  induction l with
  | nil => intro va _; simp [evalCount]
  | cons hd l ih =>
    obtain ⟨o, v⟩ := hd
    intro va h
    by_cases hc : cmp o va v
    · rw [firstFalseAux, if_pos hc, Option.map_eq_none'] at h
      simp [evalCount, hc, ih v h]
    · rw [firstFalseAux, if_neg hc] at h
      simp at h

/-- The number of terms actually evaluated is exactly what the spec
prescribes: truncation at the first false comparison. -/
theorem evaluated_eq_truncLen {α : Type} (cmp : Op → α → α → Bool) (c : Chain α) :
    Chain.evaluated cmp c = Chain.truncLen cmp c := by
  rw [Chain.evaluated, Chain.truncLen, Chain.firstFalse]
  cases h : firstFalseAux cmp c.t0 ((c.op0, c.t1) :: c.tail) with
  | none =>
    rw [firstFalseAux_none cmp _ _ h]
    simp [Chain.numTerms]
    omega
  | some i => rw [(firstFalseAux_some cmp _ _ _ h).1]

/-- A term strictly beyond the second is evaluated exactly when all the
comparisons before the one it is the right operand of are true. -/
theorem evalCount_iff_take_all {α : Type} (cmp : Op → α → α → Bool) :
    ∀ (l : List (Op × α)) (va : α) (j : Nat), 1 ≤ j → j < l.length →
    (j + 1 ≤ evalCount cmp va l ↔ ((comps cmp va l).take j).all id = true) := by
  intro l
  induction l with
  | nil => intro va j _ h2; simp at h2
  | cons hd l ih =>
    obtain ⟨o, v⟩ := hd
    intro va j h1 h2
    obtain ⟨j', rfl⟩ : ∃ j', j = j' + 1 := ⟨j - 1, by omega⟩
    by_cases hc : cmp o va v
    · simp only [evalCount, comps, hc, if_true, List.take_succ_cons,
        List.all_cons, id_eq, Bool.true_and, Nat.add_le_add_iff_right]
      rcases Nat.eq_zero_or_pos j' with hj0 | hj0
      · subst hj0
        simp only [List.take_zero, List.all_nil]
        constructor
        · intro _; trivial
        · intro _
          cases l with
          | nil => simp at h2
          | cons hd2 l2 =>
            obtain ⟨o2, v2⟩ := hd2
            exact evalCount_pos cmp v o2 v2 l2
      · have h2' : j' < l.length := by simpa using h2
        exact ih v j' hj0 h2'
    · simp [evalCount, comps, hc]

/-! ## Supporting lemmas about the grouper -/

theorem wrap_end_step {γ : Type} (prev : List (List (Tok γ) × Op)) (c : Tok γ)
    (cs : List (Tok γ)) : wrap prev (c :: cs) [] = opBuild prev (c :: cs) := rfl

theorem wrap_trailing_step {γ : Type} (prev : List (List (Tok γ) × Op))
    (cur : List (Tok γ)) (o : Op) : wrap prev cur [Tok.op o] = Out.argErr o := rfl

theorem wrap_op_step {γ : Type} (prev : List (List (Tok γ) × Op)) (c : Tok γ)
    (cs : List (Tok γ)) (o : Op) (next : Tok γ) (rest : List (Tok γ)) :
    wrap prev (c :: cs) (Tok.op o :: next :: rest)
      = wrap (prev ++ [(c :: cs, o)]) [next] rest := rfl

theorem wrap_atom_step {γ : Type} (prev : List (List (Tok γ) × Op)) (c : Tok γ)
    (cs : List (Tok γ)) (a : γ) (rest : List (Tok γ)) :
    wrap prev (c :: cs) (Tok.atom a :: rest)
      = wrap prev ((c :: cs) ++ [Tok.atom a]) rest := rfl

theorem chain_atom_head {γ : Type} (a : γ) (rest : List (Tok γ)) :
    chain (Tok.atom a :: rest) = wrap [] [Tok.atom a] rest := rfl

theorem chain_op_head {γ : Type} (o : Op) (rest : List (Tok γ)) :
    chain (Tok.op o :: rest) = Out.argErr o := rfl

/-- Invariant of the `@wrap` scan: whenever an expression is emitted, there
is at least one `(term, operator)` pair, and every term — the closed groups
as well as the trailing one — is non-empty with operators at most in head
position. -/
theorem wrap_inv {γ : Type} :
    ∀ (rest : List (Tok γ)) (prev : List (List (Tok γ) × Op)) (cur : List (Tok γ)),
    (∀ p ∈ prev, goodTerm p.1) → goodTerm cur →
    ∀ (pairs : List (List (Tok γ) × Op)) (last : List (Tok γ)),
    wrap prev cur rest = Out.expr pairs last →
    pairs ≠ [] ∧ (∀ p ∈ pairs, goodTerm p.1) ∧ goodTerm last
  | [], prev, cur, hprev, hcur, pairs, last => by
    obtain ⟨c, cs, rfl⟩ : ∃ c cs, cur = c :: cs := by
      cases cur with
      | nil => exact absurd rfl hcur.1
      | cons c cs => exact ⟨c, cs, rfl⟩
    intro h
    rw [wrap_end_step] at h
    cases prev with
    | nil => rw [opBuild] at h; cases h
    | cons p ps =>
      rw [opBuild] at h
      cases h
      exact ⟨by simp, hprev, hcur⟩
  | [Tok.op o], prev, cur, hprev, hcur, pairs, last => by
    intro h
    rw [wrap_trailing_step] at h
    cases h
  | Tok.op o :: next :: r, prev, cur, hprev, hcur, pairs, last => by
    obtain ⟨c, cs, rfl⟩ : ∃ c cs, cur = c :: cs := by
      cases cur with
      | nil => exact absurd rfl hcur.1
      | cons c cs => exact ⟨c, cs, rfl⟩
    intro h
    rw [wrap_op_step] at h
    refine wrap_inv r _ _ ?_ ?_ pairs last h
    · intro p hp
      rcases List.mem_append.mp hp with hp | hp
      · exact hprev p hp
      · obtain rfl : p = (c :: cs, o) := by simpa using hp
        exact hcur
    · exact ⟨by simp, by simp⟩
  | Tok.atom a :: r, prev, cur, hprev, hcur, pairs, last => by
    obtain ⟨c, cs, rfl⟩ : ∃ c cs, cur = c :: cs := by
      cases cur with
      | nil => exact absurd rfl hcur.1
      | cons c cs => exact ⟨c, cs, rfl⟩
    intro h
    rw [wrap_atom_step] at h
    refine wrap_inv r _ _ hprev ?_ pairs last h
    refine ⟨by simp, ?_⟩
    intro t ht
    simp only [List.cons_append, List.drop_succ_cons, List.drop_zero] at ht
    rcases List.mem_append.mp ht with ht | ht
    · exact hcur.2 t (by simpa using ht)
    · obtain rfl : t = Tok.atom a := by simpa using ht
      rfl

/-- A scan whose remaining input contains no comparison-operator token only
ever takes the catch-all rule, appending every remaining token to the
accumulator before reaching the end rule. -/
theorem wrap_all_atoms {γ : Type} :
    ∀ (rest : List (Tok γ)), (∀ t ∈ rest, t.isOp = false) →
    ∀ (prev : List (List (Tok γ) × Op)) (c : Tok γ) (cs : List (Tok γ)),
    wrap prev (c :: cs) rest = opBuild prev ((c :: cs) ++ rest)
  | [], _, prev, c, cs => by
    rw [wrap_end_step, List.append_nil]
  | Tok.atom a :: rest', h, prev, c, cs => by
    rw [wrap_atom_step, List.cons_append,
      wrap_all_atoms rest' (fun t ht => h t (List.mem_cons_of_mem _ ht)) prev c
        (cs ++ [Tok.atom a])]
    simp
  | Tok.op o :: rest', h, prev, c, cs => by
    exact absurd (h (Tok.op o) (by simp)) (by simp [Tok.isOp])

/-- With no two adjacent comparison operators in the remaining input, a scan
whose remaining input ends in an operator always reaches the
trailing-operator error rule naming that operator. -/
theorem wrap_trailing_err {γ : Type} (o : Op) :
    ∀ (front : List (Tok γ)), noConsec (front ++ [Tok.op o]) = true →
    ∀ (prev : List (List (Tok γ) × Op)) (c : Tok γ) (cs : List (Tok γ)),
    wrap prev (c :: cs) (front ++ [Tok.op o]) = Out.argErr o
  | [], _, prev, c, cs => wrap_trailing_step prev (c :: cs) o
  | Tok.atom a :: front', hnc, prev, c, cs => by
    rw [List.cons_append, wrap_atom_step]
    exact wrap_trailing_err o front' hnc prev c (cs ++ [Tok.atom a])
  | [Tok.op o'], hnc, prev, c, cs => by
    exact absurd hnc (by simp [noConsec])
  | Tok.op o' :: Tok.op o'' :: front', hnc, prev, c, cs => by
    exact absurd hnc (by simp [noConsec])
  | Tok.op o' :: Tok.atom a :: front', hnc, prev, c, cs => by
    rw [List.cons_append, List.cons_append, wrap_op_step]
    exact wrap_trailing_err o front' hnc (prev ++ [(c :: cs, o')]) (Tok.atom a) []

/-! ## Claims -/

/-- C1: for every valid chain `t0 op0 t1 ... opn-1 tn` with `n >= 1`
operators whose terms are free of side effects, the boolean produced by
`chain!` equals the logical AND of all adjacent pairwise comparisons, each
evaluated independently. -/
theorem C1_equivalence_to_conjunction {α : Type} (cmp : Op → α → α → Bool) (c : Chain α) :
    (Chain.eval cmp c).1 = (Chain.comparisons cmp c).all id := by
  rw [chain_eval_spec]

/-- C2: one evaluation of the expression produced by `chain!` fires each
term's side effect at most once: the trace of fired term indices has no
duplicates. -/
theorem C2_single_evaluation {α : Type} (cmp : Op → α → α → Bool) (c : Chain α) :
    ((Chain.eval cmp c).2).Nodup ∧ ∀ i, ((Chain.eval cmp c).2).count i ≤ 1 := by
  have h : ((Chain.eval cmp c).2).Nodup := by
    rw [chain_eval_spec]
    exact List.nodup_range _
  exact ⟨h, fun i => List.nodup_iff_count_le_one.mp h i⟩

/-- C3: the side-effect trace of one evaluation equals the left-to-right
term order `0, 1, ..., n` truncated at the first false comparison, and when
comparison `i` is false no term of index greater than `i + 1` ever fires. -/
theorem C3_trace_truncation {α : Type} (cmp : Op → α → α → Bool) (c : Chain α) :
    (Chain.eval cmp c).2 = (List.range (Chain.numTerms c)).take (Chain.truncLen cmp c)
    ∧ ∀ i, Chain.firstFalse cmp c = some i →
        ∀ j ∈ (Chain.eval cmp c).2, j ≤ i + 1 := by
  have hev : (Chain.eval cmp c).2 = List.range (Chain.evaluated cmp c) := by
    rw [chain_eval_spec]
  have hle : Chain.evaluated cmp c ≤ Chain.numTerms c := by
    have := evalCount_le_length cmp ((c.op0, c.t1) :: c.tail) c.t0
    rw [Chain.evaluated, Chain.numTerms]
    simp only [List.length_cons] at this
    omega
  constructor
  · rw [hev, List.take_range, ← evaluated_eq_truncLen]
    congr 1
    exact (Nat.min_eq_left hle).symm
  · intro i hi j hj
    rw [hev, List.mem_range] at hj
    rw [Chain.firstFalse] at hi
    have hcount := (firstFalseAux_some cmp _ _ _ hi).1
    rw [Chain.evaluated, hcount] at hj
    omega

/-- Witness for C3 at the chain `5 == 7 < 9`: the first comparison is
false, so only terms 0 and 1 fire. -/
theorem C3_trace_truncation_witness :
    (Chain.eval Op.applyInt (⟨5, Op.eq, 7, [(Op.lt, 9)]⟩ : Chain Int)).2
        = (List.range 3).take 2
    ∧ ∀ j ∈ (Chain.eval Op.applyInt (⟨5, Op.eq, 7, [(Op.lt, 9)]⟩ : Chain Int)).2,
        j ≤ 1 := by
  have h := C3_trace_truncation Op.applyInt (⟨5, Op.eq, 7, [(Op.lt, 9)]⟩ : Chain Int)
  exact ⟨h.1, fun j hj => h.2 0 (by decide) j hj⟩

/-- C4: the evaluation plan satisfies the recursive equation of the chain
builder: with one operator it returns `a op0 b` after firing terms 0 and 1;
with more operators its value is `(a op0 b) && (plan of the chain starting
from b)`, and its trace shows that the continuation reuses the saved value
of term 1 as its first operand without firing it again (the whole trace is
`0` followed by the continuation's trace shifted by one position). -/
theorem C4_recursive_plan {α : Type} (cmp : Op → α → α → Bool) (a b v2 : α)
    (o o2 : Op) (t : List (Op × α)) :
    Chain.eval cmp ⟨a, o, b, []⟩ = (cmp o a b, [0, 1])
    ∧ (Chain.eval cmp ⟨a, o, b, (o2, v2) :: t⟩).1
        = (cmp o a b && (Chain.eval cmp ⟨b, o2, v2, t⟩).1)
    ∧ (Chain.eval cmp ⟨a, o, b, (o2, v2) :: t⟩).2
        = (if cmp o a b
           then 0 :: ((Chain.eval cmp ⟨b, o2, v2, t⟩).2).map (fun j => j + 1)
           else [0, 1]) := by
  refine ⟨?_, ?_, ?_⟩
  · rw [chain_eval_spec]
    simp [Chain.comparisons, comps, Chain.evaluated, evalCount,
      List.range_succ, List.range_zero]
  · simp only [chain_eval_spec]
    simp [Chain.comparisons, comps]
  · simp only [chain_eval_spec]
    by_cases h : cmp o a b
    · have hE : Chain.evaluated cmp ⟨a, o, b, (o2, v2) :: t⟩
          = Chain.evaluated cmp ⟨b, o2, v2, t⟩ + 1 := by
        simp [Chain.evaluated, evalCount, h]
      rw [hE, List.range_succ_eq_map, if_pos h]
    · have hE : Chain.evaluated cmp ⟨a, o, b, (o2, v2) :: t⟩ = 2 := by
        simp [Chain.evaluated, evalCount, h]
      rw [hE, if_neg h]
      rfl

/-- C5: any token that is not one of the six comparison operators is
appended to the current term accumulator (the `@wrap` catch-all rule), so a
term with embedded non-comparison operators groups as a single term; in
particular `1 + 2 == 6 / 2 == 3` groups as
`((1 + 2) == (6 / 2)) && ((6 / 2) == 3)` and evaluates to `true`. -/
theorem C5_non_operator_transparency :
    (∀ {γ : Type} (prev : List (List (Tok γ) × Op)) (c : Tok γ) (cs : List (Tok γ))
        (a : γ) (rest : List (Tok γ)),
      wrap prev (c :: cs) (Tok.atom a :: rest) = wrap prev ((c :: cs) ++ [Tok.atom a]) rest)
    ∧ chain exTokens
        = Out.expr
            [([Tok.atom (Atom.num 1), Tok.atom Atom.plus, Tok.atom (Atom.num 2)], Op.eq),
             ([Tok.atom (Atom.num 6), Tok.atom Atom.div, Tok.atom (Atom.num 2)], Op.eq)]
            [Tok.atom (Atom.num 3)]
    ∧ chainOf evalAtomTerm (chain exTokens) = some ⟨3, Op.eq, 3, [(Op.eq, 3)]⟩
    ∧ Chain.eval Op.applyInt ⟨3, Op.eq, 3, [(Op.eq, 3)]⟩ = (true, [0, 1, 2]) := by
  refine ⟨fun prev c cs a rest => wrap_atom_step prev c cs a rest, ?_, ?_, ?_⟩
  · decide
  · decide
  · decide

/-- C6 as stated is false: on `5 < < 6` the grouper succeeds and the
trailing term `(< 6)` contains a recognised comparison-operator token, so a
comparison operator does not always terminate the current term. -/
theorem C6_counterexample :
    chain [Tok.atom (1 : Int), Tok.op Op.lt, Tok.op Op.lt, Tok.atom 2]
        = Out.expr [([Tok.atom 1], Op.lt)] [Tok.op Op.lt, Tok.atom 2]
    ∧ ([Tok.op Op.lt, Tok.atom (2 : Int)]).any Tok.isOp = true := by
  decide

/-- C6 (amended): whenever the grouper succeeds, its output is an
alternating sequence of `pairs.length >= 1` operators and
`pairs.length + 1` terms, every term is non-empty, and a comparison
operator can occur inside a term only as that term's first token (where it
lands when captured directly after another operator). -/
theorem C6_amended_invariant {γ : Type} (input : List (Tok γ))
    (pairs : List (List (Tok γ) × Op)) (last : List (Tok γ))
    (h : chain input = Out.expr pairs last) :
    pairs ≠ [] ∧ (∀ p ∈ pairs, goodTerm p.1) ∧ goodTerm last := by
  cases input with
  | nil =>
    rw [show chain ([] : List (Tok γ)) = Out.noMatch from rfl] at h
    cases h
  | cons t rest =>
    cases t with
    | op o =>
      rw [chain_op_head] at h
      cases h
    | atom a =>
      rw [chain_atom_head] at h
      exact wrap_inv rest [] [Tok.atom a] (by simp) ⟨by simp, by simp⟩ pairs last h

/-- Witness for the amended C6 at input `1 < 2`. -/
theorem C6_amended_invariant_witness :
    ([([Tok.atom (1 : Int)], Op.lt)] : List (List (Tok Int) × Op)) ≠ []
    ∧ (∀ p ∈ ([([Tok.atom (1 : Int)], Op.lt)] : List (List (Tok Int) × Op)), goodTerm p.1)
    ∧ goodTerm [Tok.atom (2 : Int)] :=
  C6_amended_invariant [Tok.atom 1, Tok.op Op.lt, Tok.atom 2]
    [([Tok.atom 1], Op.lt)] [Tok.atom 2] (by decide)

/-- C7 as stated is false for inputs ending in an operator: on `9 < <` the
trailing operator is captured into the final term, an expression is emitted
(ill-formed for the host parser), and no `MissingOperand` diagnostic is
produced. -/
theorem C7_counterexample :
    chain [Tok.atom (9 : Int), Tok.op Op.lt, Tok.op Op.lt]
        = Out.expr [([Tok.atom 9], Op.lt)] [Tok.op Op.lt]
    ∧ Out.message (chain [Tok.atom (9 : Int), Tok.op Op.lt, Tok.op Op.lt]) = none := by
  decide

/-- C7 (amended): an input beginning with a comparison operator always
fails with the `MissingOperand` diagnostic naming that operator; an input
ending with a comparison operator fails with the `MissingOperand`
diagnostic naming the final operator provided no two comparison operators
are adjacent in it. -/
theorem C7_missing_operand {γ : Type} (a : γ) (mid : List (Tok γ)) (o o' : Op)
    (rest : List (Tok γ))
    (h : noConsec (Tok.atom a :: (mid ++ [Tok.op o])) = true) :
    chain (Tok.op o' :: rest) = Out.argErr o'
    ∧ Out.message (chain (Tok.op o' :: rest))
        = some ("Expected two arguments for \"" ++ o'.symbol ++ "\"")
    ∧ chain (Tok.atom a :: (mid ++ [Tok.op o])) = Out.argErr o
    ∧ Out.message (chain (Tok.atom a :: (mid ++ [Tok.op o])))
        = some ("Expected two arguments for \"" ++ o.symbol ++ "\"") := by
  have h3 : chain (Tok.atom a :: (mid ++ [Tok.op o])) = Out.argErr o := by
    rw [chain_atom_head]
    exact wrap_trailing_err o mid h [] (Tok.atom a) []
  refine ⟨chain_op_head o' rest, ?_, h3, ?_⟩
  · rw [chain_op_head]
    rfl
  · rw [h3]
    rfl

/-- Witness for the amended C7 at inputs `< 5` and `5 <`. -/
theorem C7_missing_operand_witness :
    chain [Tok.op Op.lt, Tok.atom (5 : Int)] = Out.argErr Op.lt
    ∧ Out.message (chain [Tok.op Op.lt, Tok.atom (5 : Int)])
        = some ("Expected two arguments for \"" ++ Op.symbol Op.lt ++ "\"")
    ∧ chain [Tok.atom (5 : Int), Tok.op Op.lt] = Out.argErr Op.lt
    ∧ Out.message (chain [Tok.atom (5 : Int), Tok.op Op.lt])
        = some ("Expected two arguments for \"" ++ Op.symbol Op.lt ++ "\"") :=
  C7_missing_operand (5 : Int) [] Op.lt Op.lt [Tok.atom 5] (by decide)

/-- C8 as stated is false: on `5 < < 6` (two adjacent operators away from
the start) translation does not fail with a `MissingOperand` diagnostic —
the second operator is silently grouped into the following term and an
expression is emitted. -/
theorem C8_counterexample :
    chain [Tok.atom (5 : Int), Tok.op Op.lt, Tok.op Op.lt, Tok.atom 6]
        = Out.expr [([Tok.atom 5], Op.lt)] [Tok.op Op.lt, Tok.atom 6]
    ∧ Out.message (chain [Tok.atom (5 : Int), Tok.op Op.lt, Tok.op Op.lt, Tok.atom 6])
        = none := by
  decide

/-- C8 (amended): two adjacent comparison operators at the very start fail
with the `MissingOperand` diagnostic naming the first of them; anywhere
else the second operator is captured as the first token of the following
term by the `@wrap` operator rule (`$next:tt`) and scanning continues, e.g.
`7 < < 8` emits an expression grouped as `(7) < (< 8)`. -/
theorem C8_adjacent_operators {γ : Type} (o1 o2 : Op) (rest : List (Tok γ))
    (prev : List (List (Tok γ) × Op)) (c : Tok γ) (cs rest2 : List (Tok γ)) :
    chain (Tok.op o1 :: Tok.op o2 :: rest) = Out.argErr o1
    ∧ wrap prev (c :: cs) (Tok.op o1 :: Tok.op o2 :: rest2)
        = wrap (prev ++ [(c :: cs, o1)]) [Tok.op o2] rest2
    ∧ chain [Tok.atom (7 : Int), Tok.op Op.lt, Tok.op Op.lt, Tok.atom 8]
        = Out.expr [([Tok.atom 7], Op.lt)] [Tok.op Op.lt, Tok.atom 8] :=
  ⟨chain_op_head o1 _, wrap_op_step prev c cs o1 (Tok.op o2) rest2, by decide⟩

/-- C9: every `chain!` invocation with exactly one term and zero comparison
operators — any non-empty token sequence none of whose tokens is a
comparison operator, single- or multi-token (`chain!(x)`, `chain!(1 + 2)`)
— expands to the `@op` catch-all `compile_error!` with the message
"Expected comparison operator (<, <=, >, >=, ==, !=)"; the bare term is not
passed through as an expression. -/
theorem C9_bare_term_rejected {γ : Type} (a : γ) (rest : List (Tok γ))
    (h : ∀ t ∈ rest, t.isOp = false) :
    chain (Tok.atom a :: rest) = Out.opErr
    ∧ Out.message (chain (Tok.atom a :: rest))
        = some "Expected comparison operator (<, <=, >, >=, ==, !=)" := by
  have hout : chain (Tok.atom a :: rest) = Out.opErr := by
    rw [chain_atom_head, wrap_all_atoms rest h [] (Tok.atom a) []]
    rfl
  exact ⟨hout, by rw [hout]; rfl⟩

/-- Witness for C9 at the multi-token bare term `1 + 2`. -/
theorem C9_bare_term_rejected_witness :
    chain [Tok.atom (Atom.num 1), Tok.atom Atom.plus, Tok.atom (Atom.num 2)] = Out.opErr
    ∧ Out.message (chain [Tok.atom (Atom.num 1), Tok.atom Atom.plus, Tok.atom (Atom.num 2)])
        = some "Expected comparison operator (<, <=, >, >=, ==, !=)" :=
  C9_bare_term_rejected (Atom.num 1) [Tok.atom Atom.plus, Tok.atom (Atom.num 2)]
    (by decide)

/-- C10: terms 0 and 1 always fire (both operands of the first comparison
are evaluated before it is tested), and for `2 <= i <= n`, term `i` fires
exactly when comparisons `0` through `i - 2` are all true. -/
theorem C10_term_evaluation_condition {α : Type} (cmp : Op → α → α → Bool) (c : Chain α)
    (i : Nat) (h2 : 2 ≤ i) (hn : i ≤ Chain.numOps c) :
    0 ∈ (Chain.eval cmp c).2 ∧ 1 ∈ (Chain.eval cmp c).2
    ∧ (i ∈ (Chain.eval cmp c).2
        ↔ ((Chain.comparisons cmp c).take (i - 1)).all id = true) := by
  have hev : (Chain.eval cmp c).2 = List.range (Chain.evaluated cmp c) := by
    rw [chain_eval_spec]
  have hpos : 1 ≤ evalCount cmp c.t0 ((c.op0, c.t1) :: c.tail) :=
    evalCount_pos cmp c.t0 c.op0 c.t1 c.tail
  rw [Chain.numOps] at hn
  rw [hev]
  refine ⟨?_, ?_, ?_⟩
  · rw [List.mem_range, Chain.evaluated]
    omega
  · rw [List.mem_range, Chain.evaluated]
    omega
  · rw [List.mem_range, Chain.evaluated, Chain.comparisons]
    have hiff := evalCount_iff_take_all cmp ((c.op0, c.t1) :: c.tail) c.t0 (i - 1)
      (by omega) (by simp only [List.length_cons]; omega)
    constructor
    · intro hlt
      exact hiff.mp (by omega)
    · intro hall
      have := hiff.mpr hall
      omega

/-- Witness for C10 at the chain `1 < 2 < 3` and `i = 2`. -/
theorem C10_term_evaluation_condition_witness :
    0 ∈ (Chain.eval Op.applyInt (⟨1, Op.lt, 2, [(Op.lt, 3)]⟩ : Chain Int)).2
    ∧ 1 ∈ (Chain.eval Op.applyInt (⟨1, Op.lt, 2, [(Op.lt, 3)]⟩ : Chain Int)).2
    ∧ (2 ∈ (Chain.eval Op.applyInt (⟨1, Op.lt, 2, [(Op.lt, 3)]⟩ : Chain Int)).2
        ↔ ((Chain.comparisons Op.applyInt
              (⟨1, Op.lt, 2, [(Op.lt, 3)]⟩ : Chain Int)).take 1).all id = true) :=
  C10_term_evaluation_condition Op.applyInt (⟨1, Op.lt, 2, [(Op.lt, 3)]⟩ : Chain Int) 2
    (by decide) (by decide)

end Cmpchain
